import Mathlib

/-!
Formal model of the InvestoPal core numerics: the compounding projector
(`simulate_investment`, investopal.py lines 128-140), the lump-sum closed form
(`calculate_projected_value`, app.py lines 33-34), the risk classifier
(`categorize_risk`, identical in investopal.py lines 119-126 and app.py lines
541-546) and the risk-metrics calculator (`calculate_risk_metrics`, app.py
lines 505-539, with the divergent price-field extraction of investopal.py line
99 modelled separately).

Floating-point arithmetic is idealised: exact rationals for the projector and
the classifier, real numbers for the metrics (whose formulas contain square
roots).  A pandas/NumPy NaN is modelled as `Option.none`; where a float cell of
a raw price table can be missing the cell type is `Option ℝ`.
-/

namespace InvestoPal

/-! ## Compounding projector (investopal.py, lines 128-140) -/

/-- One iteration of the loop body of `simulate_investment`:
`current_value = current_value * (1 + monthly_return) + monthly_contribution`. -/
def simStep (monthly_return monthly_contribution current_value : ℚ) : ℚ :=
  current_value * (1 + monthly_return) + monthly_contribution

/-- The `for month in range(1, months + 1)` loop of `simulate_investment`: the
list of values appended after the initial one, iterating `simStep`. -/
def simLoop (monthly_return monthly_contribution : ℚ) : ℕ → ℚ → List ℚ
  | 0, _ => []
  | n + 1, cur =>
      simStep monthly_return monthly_contribution cur ::
        simLoop monthly_return monthly_contribution n
          (simStep monthly_return monthly_contribution cur)

/-- `simulate_investment(initial_amount, annual_return, years, monthly_contribution)`
(investopal.py lines 128-140): `months = years * 12`,
`monthly_return = annual_return / 12`, then the accumulation loop.  The source
performs no input validation; a negative `years` merely makes
`range(1, months + 1)` empty, whence the `Int.toNat` iteration count. -/
def simulate_investment (initial_amount annual_return : ℚ) (years : ℤ)
    (monthly_contribution : ℚ) : List ℚ :=
  initial_amount ::
    simLoop (annual_return / 12) monthly_contribution (years * 12).toNat initial_amount

/-- `calculate_projected_value(principal, annual_return, years)` (app.py lines
33-34): the lump-sum closed form `principal * (1 + annual_return) ** years`. -/
def calculate_projected_value (principal annual_return : ℚ) (years : ℕ) : ℚ :=
  principal * (1 + annual_return) ^ years

/-- Modelled from the spec: the generalized compounding recurrence of the
Compounding Projector contract (spec section 4.3), with its explicit
`periods_per_year` parameter.  The source's `simulate_investment` fixes
`periods_per_year = 12`; no code in src/ runs the recurrence at any other
period count, so the generalization follows the spec's words:
`value[0] = initial_amount`;
`value[k] = value[k-1] * (1 + annual_rate / periods_per_year) + periodic_contribution`. -/
def spec_recurrence_value (initial_amount periodic_contribution annual_rate : ℚ)
    (periods_per_year : ℕ) : ℕ → ℚ
  | 0 => initial_amount
  | k + 1 =>
      spec_recurrence_value initial_amount periodic_contribution annual_rate
          periods_per_year k *
        (1 + annual_rate / periods_per_year) + periodic_contribution

/-- The three risk categories returned by `categorize_risk`. -/
inductive RiskCategory where
  | Conservative
  | Moderate
  | Aggressive
deriving DecidableEq

/-- `categorize_risk(volatility)` (investopal.py lines 119-126; app.py lines
541-546 is logically identical).  The float literals `0.2` and `0.4` are
idealised as the exact rationals `1/5` and `2/5`. -/
def categorize_risk (volatility : ℚ) : RiskCategory :=
  if volatility < 1/5 then RiskCategory.Conservative
  else if volatility < 2/5 then RiskCategory.Moderate
  else RiskCategory.Aggressive

/-! ## Risk-metrics calculator (app.py, lines 493-546)

The pandas float values flowing through `calculate_risk_metrics` are modelled
as `Option ℝ`: `none` is NaN, `some x` a finite value.  Square roots make these
definitions noncomputable; the structure of every definition still mirrors the
corresponding pandas expression of the source. -/

open scoped Classical

noncomputable section

/-- NaN-propagating float multiplication. -/
def fmul (x y : Option ℝ) : Option ℝ := Option.map₂ (· * ·) x y

/-- NaN-propagating float subtraction. -/
def fsub (x y : Option ℝ) : Option ℝ := Option.map₂ (· - ·) x y

/-- NaN-propagating float division.  Division by zero — which the source never
performs on its actual domains (positive prices, a standard deviation guarded
against zero) — is mapped to "no value". -/
def fdiv (x y : Option ℝ) : Option ℝ :=
  match x, y with
  | some a, some b => if b = 0 then none else some (a / b)
  | _, _ => none

/-- The arithmetic mean `l.sum / l.length` (with Lean's `x / 0 = 0` junk value
on the empty list, which `mean?` masks). -/
def meanVal (l : List ℝ) : ℝ := l.sum / l.length

/-- pandas `Series.mean()`: NaN on an empty series. -/
def mean? (l : List ℝ) : Option ℝ :=
  if l.isEmpty then none else some (meanVal l)

/-- pandas `Series.var()` with the default `ddof = 1`: NaN on fewer than two
observations, else the sum of squared deviations over `n - 1`. -/
def var? (l : List ℝ) : Option ℝ :=
  if l.length ≤ 1 then none
  else some ((l.map fun x => (x - meanVal l) ^ 2).sum / ((l.length - 1 : ℕ) : ℝ))

/-- pandas `Series.std()` with the default `ddof = 1`: the square root of `var?`. -/
def std? (l : List ℝ) : Option ℝ := (var? l).map Real.sqrt

/-- pandas `Series.dropna()` on a series of possibly-missing floats. -/
def dropna (l : List (Option ℝ)) : List ℝ := l.filterMap id

/-- `adj_close.pct_change().dropna()` (app.py line 529): period-over-period
fractional changes; `pct_change` leaves NaN at index 0, which `dropna` removes,
so the result pairs every price with its successor. -/
def returnsOf (prices : List ℝ) : List ℝ :=
  List.zipWith (fun prev cur => cur / prev - 1) prices prices.tail

/-- Helper for `cummax`: running maxima of a list, continuing from an
already-seen maximum `m`. -/
def cummaxFrom (m : ℝ) : List ℝ → List ℝ
  | [] => []
  | p :: ps => max m p :: cummaxFrom (max m p) ps

/-- pandas `Series.cummax()`: the running maximum up to and including each index. -/
def cummax : List ℝ → List ℝ
  | [] => []
  | p :: ps => p :: cummaxFrom p ps

/-- `(adj_close / adj_close.cummax()) - 1` (app.py line 535): elementwise
drawdowns relative to the running maximum. -/
def drawdownsOf (prices : List ℝ) : List ℝ :=
  List.zipWith (fun p m => p / m - 1) prices (cummax prices)

/-- pandas `Series.min()`: NaN on an empty series, else the least element. -/
def minOf : List ℝ → Option ℝ
  | [] => none
  | a :: l => some (l.foldl min a)

/-- `returns.rolling(30).std() * np.sqrt(252)` (app.py line 530), for a general
window `w`: NaN until `w` observations are available, then the sample standard
deviation of the last `w` values, annualized. -/
def rollingStdAnn (w : ℕ) (l : List ℝ) : List (Option ℝ) :=
  (List.range l.length).map fun i =>
    if i + 1 < w then none
    else fmul (std? ((l.take (i + 1)).drop (i + 1 - w))) (some (Real.sqrt 252))

/-- `(returns.mean() / returns.std()) * np.sqrt(252) if returns.std() != 0 else 0`
(app.py line 536).  Python's `!=` lets a NaN standard deviation take the
formula branch (`nan != 0` is true), exactly as the `else` branch here. -/
def sharpeOf (returns : List ℝ) : Option ℝ :=
  if std? returns = some 0 then some 0
  else fmul (fdiv (mean? returns) (std? returns)) (some (Real.sqrt 252))

/-- The metrics dictionary built by app.py's `calculate_risk_metrics` (lines
532-539), with the source's key order; the `sharpe_ratio` key is named
`sharpe` here. -/
structure RiskMetrics where
  volatility : Option ℝ
  avg_return : Option ℝ
  max_drawdown : Option ℝ
  sharpe : Option ℝ
  rolling_volatility : List (Option ℝ)
  total_return : Option ℝ

/-- The metric computations of app.py lines 529-539 on an already-normalized
price series.  `total_return` uses `iloc[-1]` and `iloc[0]`, here `getLast?`
and `head?` (the source only reaches this code with a non-empty series). -/
def metricsOf (prices : List ℝ) : RiskMetrics :=
  { volatility := fmul (std? (returnsOf prices)) (some (Real.sqrt 252))
    avg_return := fmul (mean? (returnsOf prices)) (some (252 : ℝ))
    max_drawdown := minOf (drawdownsOf prices)
    sharpe := sharpeOf (returnsOf prices)
    rolling_volatility := rollingStdAnn 30 (returnsOf prices)
    total_return := fmul (fsub (fdiv prices.getLast? prices.head?) (some 1)) (some 100) }

/-- Column labels of a raw yfinance price table.  The source indexes columns by
strings; only the identity of the two price fields matters, so labels are an
enumeration with an `other` catch-all. -/
inductive FieldName where
  | adjClose
  | close
  | volume
  | other (n : ℕ)
deriving DecidableEq

/-- A raw price table as returned by `yf.download`: either single-level columns
or ticker-keyed MultiIndex columns (tickers abstracted to numbers).  Cells may
be missing (NaN). -/
inductive PriceTable where
  | single (cols : List (FieldName × List (Option ℝ)))
  | multi (cols : List ((FieldName × ℕ) × List (Option ℝ)))

/-- pandas `DataFrame.empty`: an axis of length zero (no columns, or no rows). -/
def PriceTable.isEmpty : PriceTable → Bool
  | .single cols => cols.isEmpty || cols.all fun c => c.2.isEmpty
  | .multi cols => cols.isEmpty || cols.all fun c => c.2.isEmpty

/-- The price-field selection of app.py lines 509-523: under MultiIndex columns
take `("Adj Close", ticker)`, falling back to `("Close", ticker)`; under
single-level columns take `"Adj Close"`, falling back to `"Close"`; `none` when
neither field is present (the source returns `None` there). -/
def extract_price : PriceTable → ℕ → Option (List (Option ℝ))
  | .single cols, _ =>
      match cols.lookup FieldName.adjClose with
      | some s => some s
      | none => cols.lookup FieldName.close
  | .multi cols, ticker =>
      match cols.lookup (FieldName.adjClose, ticker) with
      | some s => some s
      | none => cols.lookup (FieldName.close, ticker)

/-- The normalization stage of app.py's `calculate_risk_metrics` (lines
505-525): `None`/empty input data gives `None`, a missing price field gives
`None`, otherwise the chosen series with missing values dropped. -/
def normalized (data : Option PriceTable) (ticker : ℕ) : Option (List ℝ) :=
  match data with
  | none => none
  | some t => if t.isEmpty then none else (extract_price t ticker).map dropna

/-- app.py's `calculate_risk_metrics(data, ticker)` (lines 505-539): `None` when
normalization fails or the cleaned series is empty (line 526-527), otherwise
the metrics bundle. -/
def calculate_risk_metrics (data : Option PriceTable) (ticker : ℕ) :
    Option RiskMetrics :=
  match normalized data ticker with
  | none => none
  | some ps => if ps.isEmpty then none else some (metricsOf ps)

/-- Python exceptions that can escape the investopal.py variant. -/
inductive PyError where
  | keyError
  | indexError
deriving DecidableEq

/-- The price-field selection of investopal.py's `calculate_risk_metrics` for
single-level columns (line 99: `adj_close = data['Adj Close']`): indexing a
missing column raises `KeyError`, and there is no fallback to the plain
`"Close"` field in this variant. -/
def adj_close_invest (cols : List (FieldName × List (Option ℝ))) :
    Except PyError (List (Option ℝ)) :=
  match cols.lookup FieldName.adjClose with
  | some s => Except.ok s
  | none => Except.error PyError.keyError

end

/-! ## Projector lemmas -/

theorem simLoop_length (mr mc : ℚ) (n : ℕ) (cur : ℚ) :
    (simLoop mr mc n cur).length = n := by
  induction n generalizing cur with
  | zero => rfl
  | succ n ih => simp [simLoop, ih]

theorem simLoop_getD_succ (mr mc : ℚ) (n k : ℕ) (cur : ℚ) (hk : k < n) :
    (cur :: simLoop mr mc n cur).getD (k + 1) 0 =
      simStep mr mc ((cur :: simLoop mr mc n cur).getD k 0) := by
  induction n generalizing k cur with
  | zero => exact absurd hk (Nat.not_lt_zero k)
  | succ n ih =>
    cases k with
    | zero => simp [simLoop]
    | succ k =>
      have hk' : k < n := Nat.lt_of_succ_lt_succ hk
      simp only [simLoop]
      rw [List.getD_cons_succ, List.getD_cons_succ]
      exact ih k (simStep mr mc cur) hk'

theorem simLoop_chain_le (mr mc : ℚ) (hr : 0 ≤ mr) (hc : 0 ≤ mc) (n : ℕ) (cur : ℚ)
    (h0 : 0 ≤ cur) : List.Chain (· ≤ ·) cur (simLoop mr mc n cur) := by
  induction n generalizing cur with
  | zero => exact List.Chain.nil
  | succ n ih =>
    have hstep : cur ≤ simStep mr mc cur := by
      have h1 : 0 ≤ cur * mr := mul_nonneg h0 hr
      simp only [simStep]; nlinarith
    exact List.Chain.cons hstep (ih _ (le_trans h0 hstep))

theorem simLoop_chain_lt (mr mc : ℚ) (hr : 0 ≤ mr) (hc : 0 < mc) (n : ℕ) (cur : ℚ)
    (h0 : 0 ≤ cur) : List.Chain (· < ·) cur (simLoop mr mc n cur) := by
  induction n generalizing cur with
  | zero => exact List.Chain.nil
  | succ n ih =>
    have hstep : cur < simStep mr mc cur := by
      have h1 : 0 ≤ cur * mr := mul_nonneg h0 hr
      simp only [simStep]; nlinarith
    exact List.Chain.cons hstep (ih _ (le_of_lt (lt_of_le_of_lt h0 hstep)))

theorem spec_recurrence_lump_sum (principal annual_rate : ℚ) (years : ℕ) :
    spec_recurrence_value principal 0 annual_rate 1 years =
      principal * (1 + annual_rate) ^ years := by
  induction years with
  | zero => simp [spec_recurrence_value]
  | succ y ih =>
    rw [spec_recurrence_value, ih]
    push_cast
    ring

/-- The source loop of `simulate_investment` computes exactly the spec's
recurrence at `periods_per_year = 12` and horizon `12 * years`. -/
theorem sim_matches_spec_recurrence (initial_amount annual_return monthly_contribution : ℚ)
    (years : ℤ) (k : ℕ) (hk : k ≤ (years * 12).toNat) :
    (simulate_investment initial_amount annual_return years monthly_contribution).getD k 0 =
      spec_recurrence_value initial_amount monthly_contribution annual_return 12 k := by
  induction k with
  | zero => rfl
  | succ k ih =>
    have hk' : k < (years * 12).toNat := by omega
    have h := simLoop_getD_succ (annual_return / 12) monthly_contribution
      ((years * 12).toNat) k initial_amount hk'
    have ih' := ih (by omega)
    simp only [simulate_investment] at ih' ⊢
    rw [h, ih']
    simp only [simStep, spec_recurrence_value]
    norm_num

/-! ## Claims about the projector and the classifier -/

/-- Claim C1: for every initial amount, monthly contribution, annual rate and
integer `years > 0`, `simulate_investment` returns a trajectory of length
`12 * years + 1` whose first element is the initial amount and which satisfies
`value[k] = value[k-1] * (1 + annual_rate / 12) + monthly_contribution` for
every `k` in `1 .. 12 * years`. -/
theorem C1_projection_trajectory (initial_amount annual_return monthly_contribution : ℚ)
    (years : ℤ) (hy : 0 < years) :
    (((simulate_investment initial_amount annual_return years
          monthly_contribution).length : ℤ) = 12 * years + 1) ∧
      (simulate_investment initial_amount annual_return years
          monthly_contribution).getD 0 0 = initial_amount ∧
      ∀ k : ℕ, 1 ≤ k → (k : ℤ) ≤ 12 * years →
        (simulate_investment initial_amount annual_return years
            monthly_contribution).getD k 0 =
          (simulate_investment initial_amount annual_return years
              monthly_contribution).getD (k - 1) 0 *
            (1 + annual_return / 12) + monthly_contribution := by
  refine ⟨?_, rfl, ?_⟩
  · simp only [simulate_investment, List.length_cons, simLoop_length]
    omega
  · intro k hk1 hk2
    obtain ⟨j, rfl⟩ : ∃ j, k = j + 1 := ⟨k - 1, by omega⟩
    have hj : j < (years * 12).toNat := by omega
    simpa [simulate_investment, simStep] using
      simLoop_getD_succ (annual_return / 12) monthly_contribution
        ((years * 12).toNat) j initial_amount hj

theorem C1_witness :
    (0 : ℤ) < 1 ∧
      ((((simulate_investment 50000 (6/100) 1 1000).length : ℤ) = 12 * 1 + 1) ∧
        (simulate_investment 50000 (6/100) 1 1000).getD 0 0 = 50000 ∧
        ∀ k : ℕ, 1 ≤ k → (k : ℤ) ≤ 12 * 1 →
          (simulate_investment 50000 (6/100) 1 1000).getD k 0 =
            (simulate_investment 50000 (6/100) 1 1000).getD (k - 1) 0 *
              (1 + (6/100) / 12) + 1000) :=
  ⟨by norm_num, C1_projection_trajectory 50000 (6/100) 1000 1 (by norm_num)⟩

/-- Claim C2: risk classification is a total pure function of volatility alone:
`v < 0.20` yields Conservative, `0.20 ≤ v < 0.40` Moderate, `v ≥ 0.40`
Aggressive; the boundaries `0.20` and `0.40` classify as Moderate and
Aggressive respectively. -/
theorem C2_risk_classification (v : ℚ) :
    (v < 1/5 → categorize_risk v = RiskCategory.Conservative) ∧
      (1/5 ≤ v → v < 2/5 → categorize_risk v = RiskCategory.Moderate) ∧
      (2/5 ≤ v → categorize_risk v = RiskCategory.Aggressive) ∧
      categorize_risk (1/5) = RiskCategory.Moderate ∧
      categorize_risk (2/5) = RiskCategory.Aggressive := by
  refine ⟨fun h => ?_, fun h1 h2 => ?_, fun h => ?_,
    by rw [categorize_risk, if_neg (by norm_num), if_pos (by norm_num)],
    by rw [categorize_risk, if_neg (by norm_num), if_neg (by norm_num)]⟩
  · rw [categorize_risk, if_pos h]
  · rw [categorize_risk, if_neg (by linarith), if_pos h2]
  · rw [categorize_risk, if_neg (by linarith), if_neg (by linarith)]

theorem C2_witness :
    (1/10 : ℚ) < 1/5 ∧ categorize_risk (1/10) = RiskCategory.Conservative :=
  ⟨by norm_num, (C2_risk_classification (1/10)).1 (by norm_num)⟩

/-- Claim C8 counterexample: a negative initial amount and a negative monthly
contribution are not rejected — `simulate_investment` silently produces a full
13-point trajectory from them, whose second point is computed by the usual
recurrence. -/
theorem C8_counterexample :
    (simulate_investment (-100) (1/10) 1 (-5)).length = 13 ∧
      (simulate_investment (-100) (1/10) 1 (-5)).getD 0 0 = -100 ∧
      (simulate_investment (-100) (1/10) 1 (-5)).getD 1 0 =
        -100 * (1 + (1/10) / 12) + (-5) := by
  refine ⟨?_, rfl, ?_⟩
  · simp [simulate_investment, simLoop_length]
  · have h := simLoop_getD_succ ((1/10) / 12) (-5) ((1 * 12 : ℤ).toNat) 0 (-100)
      (by norm_num)
    simpa [simulate_investment, simStep] using h

/-- Claim C8 (amended): `simulate_investment` performs no input validation.
Negative amounts and contributions are used directly in the recurrence and
produce a full trajectory of length `max 0 (12 * years) + 1` headed by the
initial amount; a non-positive horizon yields the single-point trajectory
`[initial_amount]`. -/
theorem C8_no_validation (initial_amount annual_return monthly_contribution : ℚ)
    (years : ℤ) :
    (simulate_investment initial_amount annual_return years monthly_contribution).length =
        (years * 12).toNat + 1 ∧
      (simulate_investment initial_amount annual_return years
          monthly_contribution).getD 0 0 = initial_amount ∧
      (years ≤ 0 →
        simulate_investment initial_amount annual_return years monthly_contribution =
          [initial_amount]) ∧
      (0 < years →
        (simulate_investment initial_amount annual_return years
            monthly_contribution).getD 1 0 =
          initial_amount * (1 + annual_return / 12) + monthly_contribution) := by
  refine ⟨by simp [simulate_investment, simLoop_length], rfl, ?_, ?_⟩
  · intro hy
    have h0 : (years * 12).toNat = 0 := by omega
    simp [simulate_investment, h0, simLoop]
  · intro hy
    have h1 : 0 < (years * 12).toNat := by omega
    simpa [simulate_investment, simStep] using
      simLoop_getD_succ (annual_return / 12) monthly_contribution
        ((years * 12).toNat) 0 initial_amount h1

theorem C8_witness :
    (-1 : ℤ) ≤ 0 ∧ simulate_investment 7 (1/10) (-1) 3 = [7] :=
  ⟨by norm_num, (C8_no_validation 7 (1/10) 3 (-1)).2.2.1 (by norm_num)⟩

/-- Claim C9: for every principal ≥ 0, annual rate, and integer `years > 0`,
the lump-sum closed form `calculate_projected_value` agrees exactly with the
final value of the spec's compounding recurrence run with zero periodic
contribution and one period per year over the same horizon. -/
theorem C9_lump_sum_agreement (principal annual_rate : ℚ) (years : ℕ)
    (h0 : 0 ≤ principal) (hy : 0 < years) :
    spec_recurrence_value principal 0 annual_rate 1 years =
      calculate_projected_value principal annual_rate years := by
  rw [calculate_projected_value]
  exact spec_recurrence_lump_sum principal annual_rate years

theorem C9_witness :
    (0 : ℚ) ≤ 100 ∧ 0 < 2 ∧
      spec_recurrence_value 100 0 (1/10) 1 2 =
        calculate_projected_value 100 (1/10) 2 :=
  ⟨by norm_num, by norm_num, C9_lump_sum_agreement 100 (1/10) 2 (by norm_num) (by norm_num)⟩

/-- Claim C10: with a non-negative initial amount, a non-negative annual rate,
a non-negative monthly contribution and a positive horizon, the trajectory of
`simulate_investment` is monotonically non-decreasing, and strictly increasing
whenever the monthly contribution is positive. -/
theorem C10_trajectory_monotone (initial_amount annual_return monthly_contribution : ℚ)
    (years : ℤ) (h0 : 0 ≤ initial_amount) (hr : 0 ≤ annual_return)
    (hm : 0 ≤ monthly_contribution) (hy : 0 < years) :
    (simulate_investment initial_amount annual_return years monthly_contribution).Chain'
        (· ≤ ·) ∧
      (0 < monthly_contribution →
        (simulate_investment initial_amount annual_return years
            monthly_contribution).Chain' (· < ·)) := by
  have hr12 : 0 ≤ annual_return / 12 := by positivity
  constructor
  · exact simLoop_chain_le (annual_return / 12) monthly_contribution hr12 hm
      ((years * 12).toNat) initial_amount h0
  · intro hmpos
    exact simLoop_chain_lt (annual_return / 12) monthly_contribution hr12 hmpos
      ((years * 12).toNat) initial_amount h0

/-! ## Calculator lemmas -/

theorem foldl_min_le_init (l : List ℝ) (a : ℝ) : l.foldl min a ≤ a := by
  induction l generalizing a with
  | nil => exact le_refl a
  | cons b t ih =>
    rw [List.foldl_cons]
    exact le_trans (ih (min a b)) (min_le_left a b)

theorem foldl_min_le_mem (l : List ℝ) (a b : ℝ) (hb : b ∈ l) : l.foldl min a ≤ b := by
  induction l generalizing a with
  | nil => cases hb
  | cons c t ih =>
    rw [List.foldl_cons]
    rcases List.mem_cons.mp hb with rfl | hb'
    · exact le_trans (foldl_min_le_init t _) (min_le_right a b)
    · exact ih _ hb'

theorem foldl_min_eq_init_or_mem (l : List ℝ) (a : ℝ) :
    l.foldl min a = a ∨ l.foldl min a ∈ l := by
  induction l generalizing a with
  | nil => exact Or.inl rfl
  | cons c t ih =>
    rw [List.foldl_cons]
    rcases ih (min a c) with h | h
    · rcases le_total a c with hac | hca
      · exact Or.inl (by rw [h, min_eq_left hac])
      · exact Or.inr (by rw [h, min_eq_right hca]; exact List.mem_cons_self c t)
    · exact Or.inr (List.mem_cons_of_mem c h)

theorem le_foldl_min (l : List ℝ) (a c : ℝ) (ha : c ≤ a) (hl : ∀ b ∈ l, c ≤ b) :
    c ≤ l.foldl min a := by
  induction l generalizing a with
  | nil => exact ha
  | cons b t ih =>
    rw [List.foldl_cons]
    exact ih (min a b) (le_min ha (hl b (List.mem_cons_self b t)))
      fun x hx => hl x (List.mem_cons_of_mem b hx)

theorem cummaxFrom_length (m : ℝ) (l : List ℝ) : (cummaxFrom m l).length = l.length := by
  induction l generalizing m with
  | nil => rfl
  | cons p t ih => simp [cummaxFrom, ih]

theorem cummax_length (l : List ℝ) : (cummax l).length = l.length := by
  cases l with
  | nil => rfl
  | cons p t => simp [cummax, cummaxFrom_length]

theorem zipWith_getD (f : ℝ → ℝ → ℝ) (l1 l2 : List ℝ) (i : ℕ) (h1 : i < l1.length)
    (h2 : i < l2.length) :
    (List.zipWith f l1 l2).getD i 0 = f (l1.getD i 0) (l2.getD i 0) := by
  induction l1 generalizing l2 i with
  | nil => simp at h1
  | cons a t ih =>
    cases l2 with
    | nil => simp at h2
    | cons b s =>
      cases i with
      | zero => simp [List.zipWith_cons_cons]
      | succ i =>
        simp only [List.zipWith_cons_cons, List.getD_cons_succ]
        exact ih s i (by simpa using h1) (by simpa using h2)

theorem returnsOf_length (ps : List ℝ) : (returnsOf ps).length = ps.length - 1 := by
  rw [returnsOf, List.length_zipWith, List.length_tail]
  omega

theorem sum_sq_nonneg (l : List ℝ) (c : ℝ) : 0 ≤ (l.map fun x => (x - c) ^ 2).sum := by
  apply List.sum_nonneg
  intro x hx
  obtain ⟨y, -, rfl⟩ := List.mem_map.mp hx
  positivity

theorem sum_sq_eq_zero_iff (l : List ℝ) (c : ℝ) :
    (l.map fun x => (x - c) ^ 2).sum = 0 ↔ ∀ x ∈ l, x = c := by
  induction l with
  | nil => simp
  | cons a t ih =>
    simp only [List.map_cons, List.sum_cons]
    constructor
    · intro h
      have h1 : (0:ℝ) ≤ (a - c) ^ 2 := sq_nonneg _
      have h2 : (0:ℝ) ≤ (t.map fun x => (x - c) ^ 2).sum := sum_sq_nonneg t c
      have ha : (a - c) ^ 2 = 0 := by linarith
      have hs : (t.map fun x => (x - c) ^ 2).sum = 0 := by linarith
      intro x hx
      rcases List.mem_cons.mp hx with rfl | hx'
      · have := pow_eq_zero_iff (n := 2) (by norm_num) |>.mp ha
        linarith [sub_eq_zero.mp this]
      · exact ih.mp hs x hx'
    · intro h
      have ha : a = c := h a (List.mem_cons_self a t)
      have hs : (t.map fun x => (x - c) ^ 2).sum = 0 :=
        ih.mpr fun x hx => h x (List.mem_cons_of_mem a hx)
      rw [ha, hs, sub_self]
      ring

theorem sum_const_list (l : List ℝ) (c : ℝ) (h : ∀ x ∈ l, x = c) :
    l.sum = l.length * c := by
  induction l with
  | nil => simp
  | cons a t ih =>
    rw [List.sum_cons, h a (List.mem_cons_self a t),
      ih fun x hx => h x (List.mem_cons_of_mem a hx), List.length_cons]
    push_cast
    ring

theorem std?_eq_none (l : List ℝ) (h : l.length ≤ 1) : std? l = none := by
  rw [std?, var?, if_pos h]
  rfl

theorem std?_eq_zero_iff (l : List ℝ) :
    std? l = some 0 ↔ 2 ≤ l.length ∧ ∀ x ∈ l, ∀ y ∈ l, x = y := by
  by_cases hlen : l.length ≤ 1
  · rw [std?_eq_none l hlen]
    constructor
    · intro h; cases h
    · rintro ⟨h2, -⟩; omega
  · have hlen2 : 2 ≤ l.length := by omega
    have hden : (0:ℝ) < ((l.length - 1 : ℕ) : ℝ) := by
      have : 1 ≤ l.length - 1 := by omega
      exact_mod_cast Nat.lt_of_lt_of_le Nat.zero_lt_one this
    rw [std?, var?, if_neg hlen, Option.map_some', Option.some.injEq]
    rw [Real.sqrt_eq_zero']
    have hSS : (0:ℝ) ≤ (l.map fun x => (x - meanVal l) ^ 2).sum :=
      sum_sq_nonneg l (meanVal l)
    constructor
    · intro h
      have hq : (0:ℝ) ≤ (l.map fun x => (x - meanVal l) ^ 2).sum /
          ((l.length - 1 : ℕ) : ℝ) := div_nonneg hSS hden.le
      have h0 : (l.map fun x => (x - meanVal l) ^ 2).sum /
          ((l.length - 1 : ℕ) : ℝ) = 0 := le_antisymm h hq
      have hSS0 : (l.map fun x => (x - meanVal l) ^ 2).sum = 0 := by
        rcases div_eq_zero_iff.mp h0 with h' | h'
        · exact h'
        · exact absurd h' hden.ne'
      have hall := (sum_sq_eq_zero_iff l (meanVal l)).mp hSS0
      exact ⟨hlen2, fun x hx y hy => by rw [hall x hx, hall y hy]⟩
    · rintro ⟨-, hall⟩
      obtain ⟨a, t, rfl⟩ : ∃ a t, l = a :: t := by
        cases l with
        | nil => simp at hlen2
        | cons a t => exact ⟨a, t, rfl⟩
      have hc : ∀ x ∈ a :: t, x = a :=
        fun x hx => hall x hx a (List.mem_cons_self a t)
      have hμ : meanVal (a :: t) = a := by
        rw [meanVal, sum_const_list (a :: t) a hc]
        have hne : ((a :: t).length : ℝ) ≠ 0 := by
          simp [List.length_cons]
          positivity
        field_simp
      have hSS0 : ((a :: t).map fun x => (x - meanVal (a :: t)) ^ 2).sum = 0 :=
        (sum_sq_eq_zero_iff _ _).mpr fun x hx => by rw [hc x hx, hμ]
      rw [hSS0, zero_div]

/-! ## Claims about the risk-metrics calculator -/

/-- Claim C5: the Sharpe computation `(mean / std) * sqrt 252 if std != 0 else 0`
yields exactly 0 whenever the sample standard deviation is zero — which happens
precisely for a series of at least two identical returns, regardless of their
mean — and the guarded formula otherwise (a NaN deviation compares as nonzero,
as in Python); the division is only ever taken in the nonzero branch, so no
division-by-zero can arise. -/
theorem C5_sharpe_guard (returns : List ℝ) :
    (std? returns = some 0 → sharpeOf returns = some 0) ∧
      (std? returns ≠ some 0 →
        sharpeOf returns =
          fmul (fdiv (mean? returns) (std? returns)) (some (Real.sqrt 252))) ∧
      (std? returns = some 0 ↔
        2 ≤ returns.length ∧ ∀ x ∈ returns, ∀ y ∈ returns, x = y) := by
  refine ⟨fun h => ?_, fun h => ?_, std?_eq_zero_iff returns⟩
  · rw [sharpeOf, if_pos h]
  · rw [sharpeOf, if_neg h]

theorem C5_witness :
    std? [(3:ℝ), 3] = some 0 ∧ sharpeOf [(3:ℝ), 3] = some 0 := by
  have hall : ∀ x ∈ ([3, 3] : List ℝ), ∀ y ∈ ([3, 3] : List ℝ), x = y := by
    intro x hx y hy
    simp only [List.mem_cons, List.not_mem_nil, or_false] at hx hy
    rcases hx with rfl | rfl <;> rcases hy with h | h <;> rw [h]
  have h : std? [(3:ℝ), 3] = some 0 :=
    (C5_sharpe_guard [3, 3]).2.2.mpr ⟨by simp, hall⟩
  exact ⟨h, (C5_sharpe_guard [3, 3]).1 h⟩

theorem getLast?_eq_getD (l : List ℝ) (h : l ≠ []) :
    l.getLast? = some (l.getD (l.length - 1) 0) := by
  have hlen : l.length - 1 < l.length := by
    cases l with
    | nil => exact absurd rfl h
    | cons a t => simp
  rw [List.getLast?_eq_getElem?, List.getElem?_eq_getElem hlen,
    List.getD_eq_getElem l 0 hlen]

/-- The `total_return` entry is `(iloc[-1] / iloc[0] - 1) * 100`, a percentage. -/
theorem total_return_eq (ps : List ℝ) (h2 : 2 ≤ ps.length) (h0 : ps.getD 0 0 ≠ 0) :
    (metricsOf ps).total_return =
      some ((ps.getD (ps.length - 1) 0 / ps.getD 0 0 - 1) * 100) := by
  have hne : ps ≠ [] := by
    intro h
    rw [h] at h2
    simp at h2
  have hhead : ps.head? = some (ps.getD 0 0) := by
    cases ps with
    | nil => exact absurd rfl hne
    | cons a t => rfl
  show fmul (fsub (fdiv ps.getLast? ps.head?) (some 1)) (some 100) = _
  rw [getLast?_eq_getD ps hne, hhead]
  simp only [fdiv]
  rw [if_neg h0]
  rfl

/-- Claim C7 counterexample: on the two-point series `[100, 120]` the
calculator's `total_return` is `20` — a percentage — whereas the claimed
fractional change `price[n-1]/price[0] - 1` is `0.2`. -/
theorem C7_counterexample :
    (metricsOf [100, 120]).total_return = some 20 ∧
      (20 : ℝ) ≠ (120 : ℝ) / 100 - 1 := by
  constructor
  · rw [total_return_eq [100, 120] (by simp) (by norm_num)]
    norm_num
  · norm_num

/-- Claim C7 (amended): for every price series of length n ≥ 2 (with positive
prices), the derived return series has length n − 1 with
`returns[i] = price[i+1]/price[i] - 1`, and the calculator's `total_return`
equals `(price[n-1]/price[0] - 1) * 100`: the end-over-start change is
converted to a percentage by the calculator itself (it is not annualized). -/
theorem C7_returns_total_return (ps : List ℝ) (h2 : 2 ≤ ps.length)
    (hpos : ∀ p ∈ ps, 0 < p) :
    (returnsOf ps).length = ps.length - 1 ∧
      (∀ i, i + 1 < ps.length →
        (returnsOf ps).getD i 0 = ps.getD (i + 1) 0 / ps.getD i 0 - 1) ∧
      (metricsOf ps).total_return =
        some ((ps.getD (ps.length - 1) 0 / ps.getD 0 0 - 1) * 100) := by
  have h00 : ps.getD 0 0 ≠ 0 := by
    cases ps with
    | nil => simp at h2
    | cons a t =>
      rw [List.getD_cons_zero]
      exact (hpos a (List.mem_cons_self a t)).ne'
  refine ⟨returnsOf_length ps, ?_, total_return_eq ps h2 h00⟩
  intro i hi
  cases ps with
  | nil => simp at h2
  | cons a t =>
    rw [returnsOf, show (a :: t).tail = t from rfl,
      zipWith_getD _ _ _ i (Nat.lt_of_succ_lt hi) (by simpa using hi)]
    rw [show t.getD i 0 = (a :: t).getD (i + 1) 0 from rfl]

theorem C7_witness :
    2 ≤ ([100, 110, 121] : List ℝ).length ∧
      (∀ p ∈ ([100, 110, 121] : List ℝ), 0 < p) ∧
      ((returnsOf [100, 110, 121]).length = ([100, 110, 121] : List ℝ).length - 1 ∧
        (∀ i, i + 1 < ([100, 110, 121] : List ℝ).length →
          (returnsOf [100, 110, 121]).getD i 0 =
            ([100, 110, 121] : List ℝ).getD (i + 1) 0 /
              ([100, 110, 121] : List ℝ).getD i 0 - 1) ∧
        (metricsOf [100, 110, 121]).total_return =
          some ((([100, 110, 121] : List ℝ).getD (([100, 110, 121] : List ℝ).length - 1) 0 /
              ([100, 110, 121] : List ℝ).getD 0 0 - 1) * 100)) := by
  have hpos : ∀ p ∈ ([100, 110, 121] : List ℝ), 0 < p := by
    intro p hp
    simp only [List.mem_cons, List.not_mem_nil, or_false] at hp
    rcases hp with rfl | rfl | rfl <;> norm_num
  exact ⟨by simp, hpos, C7_returns_total_return [100, 110, 121] (by simp) hpos⟩

/-- On a one-point price series every returns-based statistic of the metrics
dictionary is NaN, while `max_drawdown` and `total_return` degenerate to 0. -/
theorem metricsOf_singleton (p : ℝ) (hp : p ≠ 0) :
    metricsOf [p] = ⟨none, none, some 0, none, [], some 0⟩ := by
  have hret : returnsOf [p] = [] := rfl
  have hstd : std? (returnsOf [p]) = none := by
    rw [hret]
    exact std?_eq_none [] (by simp)
  have hne : std? (returnsOf [p]) ≠ some 0 := by
    rw [hstd]
    simp
  have hsh : sharpeOf (returnsOf [p]) = none := by
    rw [sharpeOf, if_neg hne, hret]
    rfl
  have hmin : minOf (drawdownsOf [p]) = some 0 := by
    show some (([] : List ℝ).foldl min (p / p - 1)) = some 0
    rw [List.foldl_nil, div_self hp]
    norm_num
  simp only [metricsOf, RiskMetrics.mk.injEq]
  refine ⟨?_, ?_, hmin, hsh, ?_, ?_⟩
  · rw [hstd]
    rfl
  · rw [hret]
    rfl
  · rw [hret]
    rfl
  · show fmul (fsub (fdiv ([p] : List ℝ).getLast? ([p] : List ℝ).head?) (some 1))
        (some 100) = some 0
    rw [show ([p] : List ℝ).getLast? = some p from rfl,
      show ([p] : List ℝ).head? = some p from rfl]
    simp only [fdiv]
    rw [if_neg hp, div_self hp]
    show some ((1 - 1) * 100) = some 0
    norm_num

/-- Claim C3 counterexample: a table carrying exactly one valid price point is
not reported as unavailable — the calculator returns a metrics bundle whose
volatility, average return and Sharpe ratio are NaN (and 0 drawdown and total
return), instead of `none`. -/
theorem C3_counterexample :
    calculate_risk_metrics (some (PriceTable.single [(FieldName.close, [some 7])])) 0 =
      some ⟨none, none, some 0, none, [], some 0⟩ := by
  have h : normalized (some (PriceTable.single [(FieldName.close, [some 7])])) 0 =
      some [7] := rfl
  simp [calculate_risk_metrics, h, metricsOf_singleton 7 (by norm_num)]

/-- Claim C3 (amended): when normalization yields no series or an empty series
the calculator returns None; when it yields exactly one valid price point the
calculator does **not** return None — it produces a metrics bundle whose
volatility, average return and Sharpe ratio are NaN and whose max drawdown and
total return are 0.  No division-by-zero or index error occurs in either case
(every outcome is an ordinary value). -/
theorem C3_insufficient_history (data : Option PriceTable) (ticker : ℕ) (p : ℝ)
    (hp : p ≠ 0) :
    (normalized data ticker = none → calculate_risk_metrics data ticker = none) ∧
      (normalized data ticker = some [] → calculate_risk_metrics data ticker = none) ∧
      (normalized data ticker = some [p] →
        calculate_risk_metrics data ticker =
          some ⟨none, none, some 0, none, [], some 0⟩) := by
  refine ⟨fun h => ?_, fun h => ?_, fun h => ?_⟩
  · simp [calculate_risk_metrics, h]
  · simp [calculate_risk_metrics, h]
  · simp [calculate_risk_metrics, h, metricsOf_singleton p hp]

theorem C3_witness :
    (42 : ℝ) ≠ 0 ∧
      normalized (some (PriceTable.single [(FieldName.adjClose, [some 42])])) 0 =
        some [42] ∧
      calculate_risk_metrics
          (some (PriceTable.single [(FieldName.adjClose, [some 42])])) 0 =
        some ⟨none, none, some 0, none, [], some 0⟩ :=
  ⟨by norm_num, rfl,
    (C3_insufficient_history
        (some (PriceTable.single [(FieldName.adjClose, [some 42])])) 0 42
        (by norm_num)).2.2 rfl⟩

/-- Claim C4 counterexample: the investopal.py variant has no fallback to the
plain close field — on a single-level table containing only a close column its
price extraction raises KeyError instead of selecting close or returning None. -/
theorem C4_counterexample :
    adj_close_invest [(FieldName.close, [some 3, some 4])] =
      Except.error PyError.keyError := rfl

/-- Claim C4 (amended): app.py's normalizer behaves as claimed — it selects the
adjusted-close column when present, otherwise falls back to the plain close
column, and yields None (never an exception) when neither column exists or the
cleaned series is empty; the investopal.py variant instead raises KeyError on a
single-level table without an adjusted-close column and never consults close. -/
theorem C4_normalizer (mc : List ((FieldName × ℕ) × List (Option ℝ)))
    (sc : List (FieldName × List (Option ℝ))) (ticker : ℕ)
    (data : Option PriceTable) :
    (∀ s, mc.lookup (FieldName.adjClose, ticker) = some s →
        extract_price (PriceTable.multi mc) ticker = some s) ∧
      (mc.lookup (FieldName.adjClose, ticker) = none →
        extract_price (PriceTable.multi mc) ticker =
          mc.lookup (FieldName.close, ticker)) ∧
      (∀ s, sc.lookup FieldName.adjClose = some s →
        extract_price (PriceTable.single sc) ticker = some s) ∧
      (sc.lookup FieldName.adjClose = none →
        extract_price (PriceTable.single sc) ticker = sc.lookup FieldName.close) ∧
      (normalized data ticker = none → calculate_risk_metrics data ticker = none) ∧
      (normalized data ticker = some [] → calculate_risk_metrics data ticker = none) ∧
      (sc.lookup FieldName.adjClose = none →
        adj_close_invest sc = Except.error PyError.keyError) := by
  refine ⟨fun s h => ?_, fun h => ?_, fun s h => ?_, fun h => ?_, fun h => ?_,
    fun h => ?_, fun h => ?_⟩
  · simp [extract_price, h]
  · simp [extract_price, h]
  · simp [extract_price, h]
  · simp [extract_price, h]
  · simp [calculate_risk_metrics, h]
  · simp [calculate_risk_metrics, h]
  · simp [adj_close_invest, h]

theorem C4_witness :
    ([((FieldName.adjClose, 0), [some (5 : ℝ)])].lookup (FieldName.adjClose, 0) =
        some [some (5 : ℝ)]) ∧
      extract_price (PriceTable.multi [((FieldName.adjClose, 0), [some (5 : ℝ)])]) 0 =
        some [some (5 : ℝ)] :=
  ⟨rfl, (C4_normalizer [((FieldName.adjClose, 0), [some (5 : ℝ)])] [] 0 none).1 _ rfl⟩

theorem ddFrom_nonpos (ps : List ℝ) :
    ∀ m : ℝ, 0 < m → (∀ p ∈ ps, 0 < p) →
      ∀ x ∈ List.zipWith (fun p q => p / q - 1) ps (cummaxFrom m ps), x ≤ 0 := by
  induction ps with
  | nil =>
    intro m hm hpos x hx
    simp [cummaxFrom] at hx
  | cons p t ih =>
    intro m hm hpos x hx
    rw [cummaxFrom, List.zipWith_cons_cons] at hx
    have hp : 0 < p := hpos p (List.mem_cons_self p t)
    have hmax : 0 < max m p := lt_max_iff.mpr (Or.inl hm)
    rcases List.mem_cons.mp hx with rfl | hx'
    · have h1 : p / max m p ≤ 1 := (div_le_one hmax).mpr (le_max_right m p)
      linarith
    · exact ih (max m p) hmax (fun q hq => hpos q (List.mem_cons_of_mem p hq)) x hx'

theorem ddFrom_zero_iff (ps : List ℝ) :
    ∀ m : ℝ, 0 < m → (∀ p ∈ ps, 0 < p) →
      ((∀ x ∈ List.zipWith (fun p q => p / q - 1) ps (cummaxFrom m ps), x = 0) ↔
        List.Chain (· ≤ ·) m ps) := by
  induction ps with
  | nil =>
    intro m hm hpos
    simp [cummaxFrom]
  | cons p t ih =>
    intro m hm hpos
    rw [cummaxFrom, List.zipWith_cons_cons]
    have hp : 0 < p := hpos p (List.mem_cons_self p t)
    have hmax : 0 < max m p := lt_max_iff.mpr (Or.inl hm)
    constructor
    · intro h
      have h0 : p / max m p - 1 = 0 := h _ (List.mem_cons_self _ _)
      have hmp : m ≤ p := by
        have h1 : p / max m p = 1 := by linarith
        field_simp at h1
        exact h1
      refine List.Chain.cons hmp ?_
      refine (ih p hp fun q hq => hpos q (List.mem_cons_of_mem p hq)).mp ?_
      intro x hx
      refine h x (List.mem_cons_of_mem _ ?_)
      rwa [max_eq_right hmp]
    · intro hchain
      cases hchain with
      | cons hmp htail =>
        have hM : max m p = p := max_eq_right hmp
        intro x hx
        rcases List.mem_cons.mp hx with rfl | hx'
        · rw [hM, div_self hp.ne']
          ring
        · rw [hM] at hx'
          exact (ih p hp fun q hq =>
            hpos q (List.mem_cons_of_mem p hq)).mpr htail x hx'

theorem drawdowns_nonpos (ps : List ℝ) (hpos : ∀ p ∈ ps, 0 < p) :
    ∀ x ∈ drawdownsOf ps, x ≤ 0 := by
  cases ps with
  | nil =>
    intro x hx
    simp [drawdownsOf, cummax] at hx
  | cons p t =>
    intro x hx
    rw [drawdownsOf, cummax, List.zipWith_cons_cons] at hx
    have hp : 0 < p := hpos p (List.mem_cons_self p t)
    rcases List.mem_cons.mp hx with rfl | hx'
    · rw [div_self hp.ne']
      norm_num
    · exact ddFrom_nonpos t p hp (fun q hq => hpos q (List.mem_cons_of_mem p hq)) x hx'

theorem drawdowns_zero_iff (ps : List ℝ) (hpos : ∀ p ∈ ps, 0 < p) :
    (∀ x ∈ drawdownsOf ps, x = 0) ↔ List.Chain' (· ≤ ·) ps := by
  cases ps with
  | nil => simp [drawdownsOf, cummax]
  | cons p t =>
    rw [drawdownsOf, cummax, List.zipWith_cons_cons]
    have hp : 0 < p := hpos p (List.mem_cons_self p t)
    have hiff := ddFrom_zero_iff t p hp fun q hq => hpos q (List.mem_cons_of_mem p hq)
    constructor
    · intro h
      exact hiff.mp fun x hx => h x (List.mem_cons_of_mem _ hx)
    · intro hch
      intro x hx
      rcases List.mem_cons.mp hx with rfl | hx'
      · rw [div_self hp.ne']
        ring
      · exact hiff.mpr hch x hx'

theorem cummaxFrom_getD (l : List ℝ) :
    ∀ (m : ℝ) (i : ℕ), i < l.length →
      (cummaxFrom m l).getD i 0 = (l.take (i + 1)).foldl max m := by
  induction l with
  | nil =>
    intro m i h
    simp at h
  | cons p t ih =>
    intro m i h
    cases i with
    | zero => simp [cummaxFrom]
    | succ i =>
      rw [cummaxFrom, List.getD_cons_succ, ih (max m p) i (by simpa using h)]
      rw [List.take_succ_cons, List.foldl_cons]

theorem cummax_getD (l : List ℝ) (i : ℕ) (h : i < l.length) :
    (cummax l).getD i 0 = (l.take (i + 1)).foldl max (l.getD 0 0) := by
  cases l with
  | nil => simp at h
  | cons p t =>
    cases i with
    | zero => simp [cummax, max_self]
    | succ i =>
      rw [cummax, List.getD_cons_succ, cummaxFrom_getD t p i (by simpa using h)]
      rw [List.getD_cons_zero, List.take_succ_cons, List.foldl_cons, max_self]

/-- Claim C6: for every price series of length ≥ 2 with positive prices, the
calculator's `max_drawdown` is the minimum over `i` of
`price[i] / running_max(price[0..i]) - 1` where the running maximum includes
index `i`; it is always ≤ 0, and equals 0 if and only if the price series is
monotonically non-decreasing. -/
theorem C6_max_drawdown (ps : List ℝ) (h2 : 2 ≤ ps.length)
    (hpos : ∀ p ∈ ps, 0 < p) :
    ∃ d : ℝ,
      (metricsOf ps).max_drawdown = some d ∧
      d ∈ drawdownsOf ps ∧
      (∀ x ∈ drawdownsOf ps, d ≤ x) ∧
      (∀ i, i < ps.length →
        (drawdownsOf ps).getD i 0 =
          ps.getD i 0 / ((ps.take (i + 1)).foldl max (ps.getD 0 0)) - 1) ∧
      d ≤ 0 ∧
      (d = 0 ↔ List.Chain' (· ≤ ·) ps) := by
  obtain ⟨a, t, rfl⟩ : ∃ a t, ps = a :: t := by
    cases ps with
    | nil => simp at h2
    | cons a t => exact ⟨a, t, rfl⟩
  have ha : 0 < a := hpos a (List.mem_cons_self a t)
  have hdd : drawdownsOf (a :: t) =
      (a / a - 1) :: List.zipWith (fun p q => p / q - 1) t (cummaxFrom a t) := by
    rw [drawdownsOf, cummax, List.zipWith_cons_cons]
  have h0 : a / a - 1 = 0 := by
    rw [div_self ha.ne']
    ring
  refine ⟨(List.zipWith (fun p q => p / q - 1) t (cummaxFrom a t)).foldl min (a / a - 1),
    rfl, ?_, ?_, ?_, ?_, ?_⟩
  · rw [hdd]
    rcases foldl_min_eq_init_or_mem
        (List.zipWith (fun p q => p / q - 1) t (cummaxFrom a t)) (a / a - 1) with h | h
    · rw [h]
      exact List.mem_cons_self _ _
    · exact List.mem_cons_of_mem _ h
  · rw [hdd]
    intro x hx
    rcases List.mem_cons.mp hx with rfl | hx'
    · exact foldl_min_le_init _ _
    · exact foldl_min_le_mem _ _ x hx'
  · intro i hi
    rw [show drawdownsOf (a :: t) =
        List.zipWith (fun p q => p / q - 1) (a :: t) (cummax (a :: t)) from rfl,
      zipWith_getD _ _ _ i hi (by rw [cummax_length]; exact hi),
      cummax_getD (a :: t) i hi]
  · rcases foldl_min_eq_init_or_mem
        (List.zipWith (fun p q => p / q - 1) t (cummaxFrom a t)) (a / a - 1) with h | h
    · rw [h, h0]
    · exact drawdowns_nonpos (a :: t) hpos _ (by rw [hdd]; exact List.mem_cons_of_mem _ h)
  · constructor
    · intro hdzero
      refine (drawdowns_zero_iff (a :: t) hpos).mp ?_
      intro x hx
      have hle : x ≤ 0 := drawdowns_nonpos (a :: t) hpos x hx
      have hge : (List.zipWith (fun p q => p / q - 1) t
          (cummaxFrom a t)).foldl min (a / a - 1) ≤ x := by
        rw [hdd] at hx
        rcases List.mem_cons.mp hx with rfl | hx'
        · exact foldl_min_le_init _ _
        · exact foldl_min_le_mem _ _ x hx'
      rw [hdzero] at hge
      linarith
    · intro hchain
      have hz := (drawdowns_zero_iff (a :: t) hpos).mpr hchain
      have hub : ∀ b ∈ List.zipWith (fun p q => p / q - 1) t (cummaxFrom a t),
          (0 : ℝ) ≤ b :=
        fun b hb => le_of_eq (hz b (by rw [hdd]; exact List.mem_cons_of_mem _ hb)).symm
      have hge0 : (0 : ℝ) ≤ (List.zipWith (fun p q => p / q - 1) t
          (cummaxFrom a t)).foldl min (a / a - 1) :=
        le_foldl_min _ _ 0 (le_of_eq h0.symm) hub
      have hle0 : (List.zipWith (fun p q => p / q - 1) t
          (cummaxFrom a t)).foldl min (a / a - 1) ≤ a / a - 1 :=
        foldl_min_le_init _ _
      linarith

theorem C6_witness :
    2 ≤ ([1, 2] : List ℝ).length ∧ (∀ p ∈ ([1, 2] : List ℝ), 0 < p) ∧
      (∃ d : ℝ,
        (metricsOf [1, 2]).max_drawdown = some d ∧
        d ∈ drawdownsOf [1, 2] ∧
        (∀ x ∈ drawdownsOf [1, 2], d ≤ x) ∧
        (∀ i, i < ([1, 2] : List ℝ).length →
          (drawdownsOf [1, 2]).getD i 0 =
            ([1, 2] : List ℝ).getD i 0 /
              ((([1, 2] : List ℝ).take (i + 1)).foldl max
                (([1, 2] : List ℝ).getD 0 0)) - 1) ∧
        d ≤ 0 ∧
        (d = 0 ↔ List.Chain' (· ≤ ·) ([1, 2] : List ℝ))) := by
  have hpos : ∀ p ∈ ([1, 2] : List ℝ), 0 < p := by
    intro p hp
    simp only [List.mem_cons, List.not_mem_nil, or_false] at hp
    rcases hp with rfl | rfl <;> norm_num
  exact ⟨by simp, hpos, C6_max_drawdown [1, 2] (by simp) hpos⟩

theorem C10_witness :
    (0 : ℚ) ≤ 100 ∧ (0 : ℚ) ≤ 1/10 ∧ (0 : ℚ) ≤ 5 ∧ (0 : ℤ) < 1 ∧
      ((simulate_investment 100 (1/10) 1 5).Chain' (· ≤ ·) ∧
        (0 < (5 : ℚ) → (simulate_investment 100 (1/10) 1 5).Chain' (· < ·))) :=
  ⟨by norm_num, by norm_num, by norm_num, by norm_num,
    C10_trajectory_monotone 100 (1/10) 5 1 (by norm_num) (by norm_num) (by norm_num)
      (by norm_num)⟩

end InvestoPal
